import Mathlib

/-!
Verification of the directus-drive-supabase storage adapter
(`SupabaseStorage` class and its `handleError` helper).

The adapter's own code is embedded shallowly below.  The external
collaborators — the bucket-storage provider client (`@supabase/supabase-js`),
Node's `path.join` and the `normalize-path` package — are embedded from their
documented behaviour: `path.posix.join`/`path.posix.normalize` and
`normalize-path` are pure string transforms reproduced faithfully, while the
provider boundary is represented by explicit call outcomes (success payload or
returned error object, per the spec's description of the consumed boundary),
with the rename-based `move` primitive acting on an explicit key/value store.
-/

/-! ### Path machinery: normalize-path and path.posix -/

/-- Separator test of the normalize-path package: its split regex is
the class of forward and back slashes. -/
def isSep (c : Char) : Bool := c = '/' || c = '\\'

/-- Prepend a character to the first segment of a split result. -/
def consHead (c : Char) : List String → List String
  | [] => [String.mk [c]]
  | s :: rest => String.mk (c :: s.data) :: rest

/-- JavaScript `p.split(sep)` for a single-character class: splits at every
separator character, keeping empty segments. -/
def splitBy (sep : Char → Bool) : List Char → List String
  | [] => [""]
  | c :: cs => if sep c then "" :: splitBy sep cs else consHead c (splitBy sep cs)

/-- Remove empty segments that are neither the first nor the last element of
the list; applied to the tail of a single-separator split this turns it into
the run-collapsing split of the regex class `[/\\]+`. -/
def dropInnerEmptyTail : List String → List String
  | [] => []
  | [s] => [s]
  | s :: t :: ts =>
    if s = "" then dropInnerEmptyTail (t :: ts) else s :: dropInnerEmptyTail (t :: ts)

/-- JavaScript `p.split(new RegExp ...)` on runs of slashes and backslashes, as used by
normalize-path: a leading or trailing run yields an empty boundary segment,
inner runs act as single separators. -/
def splitSeps (p : String) : List String :=
  match splitBy isSep p.data with
  | [] => []
  | s :: rest => s :: dropInnerEmptyTail rest

/-- The `segs.pop()` step of normalize-path: drop one trailing empty segment. -/
def stripTrail : List String → List String
  | [] => []
  | [s] => if s = "" then [] else [s]
  | s :: t :: ts => s :: stripTrail (t :: ts)

/-- JavaScript `segs.join(sep)` with a slash. -/
def joinSegs : List String → String
  | [] => ""
  | [s] => s
  | s :: t :: ts => s ++ "/" ++ joinSegs (t :: ts)

/-- Guard of normalize-path's Windows extended-namespace branch: a path of
length above four whose fourth character is a backslash, whose third is a
question mark or dot, and which starts with two backslashes. -/
def uncCond (p : String) : Prop :=
  p.length > 4 ∧ p.data.get? 3 = some '\\' ∧
    (p.data.get? 2 = some '?' ∨ p.data.get? 2 = some '.') ∧
    p.data.take 2 = ['\\', '\\']

instance (p : String) : Decidable (uncCond p) := by
  unfold uncCond; infer_instance

/-- The normalize-path package (default `stripTrailing`): returns a slash for
the two one-separator inputs, returns short strings unchanged, detaches a
Windows extended-namespace prefix, then splits on slash runs, drops one
trailing empty segment and rejoins with forward slashes. -/
def normalizePath (p : String) : String :=
  if p = "\\" ∨ p = "/" then "/"
  else if p.length ≤ 1 then p
  else
    let pr : String × String :=
      if uncCond p then (String.mk (p.data.drop 2), "//") else (p, "")
    pr.2 ++ joinSegs (stripTrail (splitSeps pr.1))

/-- First character of a string, as Node's `charCodeAt(0)` tests use it. -/
def strHead? (s : String) : Option Char := s.data.head?

/-- Last character of a string. -/
def strLast? (s : String) : Option Char := s.data.getLast?

/-- The segment stack of Node's `normalizeString`: empty and dot segments are
skipped; a dot-dot pops the previous segment, except that with nothing to pop
(or a retained dot-dot on top) it is retained only when `allowAboveRoot`. -/
def resolveDots (allowAboveRoot : Bool) (acc : List String) : List String → List String
  | [] => acc.reverse
  | s :: rest =>
    if s = "" ∨ s = "." then resolveDots allowAboveRoot acc rest
    else if s = ".." then
      match acc with
      | [] => resolveDots allowAboveRoot (if allowAboveRoot then [".."] else []) rest
      | t :: acc' =>
        if t = ".." then resolveDots allowAboveRoot (if allowAboveRoot then s :: t :: acc' else t :: acc') rest
        else resolveDots allowAboveRoot acc' rest
    else resolveDots allowAboveRoot (s :: acc) rest

/-- Node's `normalizeString(path, allowAboveRoot = not absolute)` helper:
split on single slashes, resolve the dot segments, rejoin. -/
def posixBody (p : String) : String :=
  joinSegs (resolveDots (if strHead? p = some '/' then false else true) []
    (splitBy (fun c => c = '/') p.data))

/-- Node `path.posix.normalize`: resolves dot and dot-dot segments and slash
runs, keeping the absolute or trailing slash where the input had one. -/
def posixNormalize (p : String) : String :=
  if p = "" then "."
  else
    let body := posixBody p
    if body = "" then
      if strHead? p = some '/' then "/"
      else if strLast? p = some '/' then "./" else "."
    else
      let body2 := if strLast? p = some '/' then body ++ "/" else body
      if strHead? p = some '/' then "/" ++ body2 else body2

/-- Node `path.posix.join` of two parts: empty parts are dropped, the rest
joined with a slash and normalized; all parts empty gives a dot. -/
def posixJoin (a b : String) : String :=
  if a = "" ∧ b = "" then "."
  else if a = "" then posixNormalize b
  else if b = "" then posixNormalize a
  else posixNormalize (a ++ "/" ++ b)

/-! ### Errors and the error translator -/

/-- A JavaScript error-like object as the adapter observes it: an identifying
name, a message, and the optional numeric status code that `exists` inspects. -/
structure ErrObj where
  name : String
  message : String
  statusCode : Option Nat
deriving DecidableEq, Repr

/-- JavaScript `new Error(msg)`: name `Error`, no status code. -/
def newError (msg : String) : ErrObj := ⟨"Error", msg, none⟩

/-- The portable error taxonomy of `@directus/drive` used by the adapter. -/
inductive DriveException where
  | noSuchBucket (cause : ErrObj) (bucketName : String)
  | fileNotFound (cause : ErrObj) (path : String)
  | permissionMissing (cause : ErrObj) (path : String)
  | unknownException (cause : ErrObj) (errName : String) (path : String)
deriving DecidableEq, Repr

/-- The cause wrapped by a portable error. -/
def DriveException.cause : DriveException → ErrObj
  | .noSuchBucket c _ => c
  | .fileNotFound c _ => c
  | .permissionMissing c _ => c
  | .unknownException c _ _ => c

/-- The adapter's `handleError`: classifies a caught error by its name. -/
def handleError (err : ErrObj) (path bucket : String) : DriveException :=
  match err.name with
  | "NoSuchBucket" => .noSuchBucket err bucket
  | "NoSuchKey" => .fileNotFound err path
  | "AllAccessDisabled" => .permissionMissing err path
  | _ => .unknownException err err.name path

/-- Errors as thrown across the adapter boundary: either a raw JavaScript
error or a translated portable error. -/
inductive Thrown where
  | js (e : ErrObj)
  | drive (d : DriveException)
deriving DecidableEq, Repr

/-! ### The provider boundary -/

/-- Modelled from the spec: the provider's object space, a flat map from keys
to byte contents, which the consumed boundary's primitives act on. -/
abbrev Store := List (String × String)

/-- Lookup of a key in the provider's object space. -/
def storeGet : Store → String → Option String
  | [], _ => none
  | (k, v) :: rest, key => if k = key then some v else storeGet rest key

/-- Modelled from the spec: the consumed boundary's `remove(keys)` primitive
restricted to the singleton list the adapter always passes. -/
def storeRemove : Store → String → Store
  | [], _ => []
  | (k, v) :: rest, key =>
    if k = key then storeRemove rest key else (k, v) :: storeRemove rest key

/-- Modelled from the spec: the consumed boundary's `upload(key, content)`
primitive. -/
def storeSet (st : Store) (k v : String) : Store := (k, v) :: storeRemove st k

/-- Modelled from the spec: the consumed boundary's `move(srcKey, destKey)`
primitive is a rename — after it succeeds the object lives at the destination
key and no longer at the source key (design note on `copy` via rename). -/
def provMove (st : Store) (src dest : String) : Store :=
  match storeGet st src with
  | some c => storeSet (storeRemove st src) dest c
  | none => st

/-- Raw provider payloads passed through in responses. -/
inductive RawV where
  | undef
  | nullData
  | blobData (bytes : List Nat)
  | provData (tag : String)
  | errObj (e : ErrObj)
  | signData (signedURL : Option (Option String))
  | fileEntry (name : String)
deriving DecidableEq, Repr

/-- Outcome of a provider call whose success payload the adapter only passes
through: success, an error object returned in the `error` field, or a thrown
rejection. -/
inductive CallOutcome where
  | ok
  | soft (e : ErrObj)
  | thrown (e : ErrObj)
deriving DecidableEq, Repr

/-- Outcome of a provider `download` call: a byte payload, a null payload
without an error, a returned error object, or a thrown rejection. -/
inductive DlOutcome where
  | ok (bytes : List Nat)
  | okNull
  | soft (e : ErrObj)
  | thrown (e : ErrObj)
deriving DecidableEq, Repr

/-- The try-block of every download-based operation: destructure
`{data, error}` and throw `new Error(error.message)` when `error` is set; a
rejected call throws its own error object. -/
def runDl : DlOutcome → Except ErrObj (Option (List Nat))
  | .ok b => .ok (some b)
  | .okNull => .ok none
  | .soft e => .error (newError e.message)
  | .thrown e => .error e

/-- The raw payload attached for a download result. -/
def dataRaw : Option (List Nat) → RawV
  | some b => .blobData b
  | none => .nullData

/-! ### The adapter: configuration and constructor -/

/-- The adapter's construction config. -/
structure SupabaseStorageConfig where
  url : String
  secret : String
  folder : String
  root : Option String
  acl : Option String
deriving DecidableEq, Repr

/-- The constructed adapter state: bucket name, root prefix, access control. -/
structure SupabaseStorage where
  folder : String
  root : String
  acl : Option String
deriving DecidableEq, Repr

/-- JavaScript `s.replace(slash-anchor-regex, empty)`: drop one leading slash. -/
def stripLeadSlash (s : String) : String :=
  match s.data with
  | '/' :: rest => String.mk rest
  | _ => s

/-- The constructor: the root prefix is the normalized configured root with
one leading slash stripped, or empty when the configured root is absent or
empty (falsy). -/
def SupabaseStorage.init (config : SupabaseStorageConfig) : SupabaseStorage :=
  { folder := config.folder
    root :=
      match config.root with
      | some r => if r = "" then "" else stripLeadSlash (normalizePath r)
      | none => ""
    acl := config.acl }

/-- The path normalizer `_fullPath`: joins the root prefix and the given path
with `path.join` and runs the result through normalize-path. -/
def SupabaseStorage._fullPath (S : SupabaseStorage) (filePath : String) : String :=
  normalizePath (posixJoin S.root filePath)

/-! ### The adapter: operations -/

/-- The adapter's `copy`: issues the provider's `move` call on the two keys;
a returned error is rethrown as `new Error(error.message)` and translated,
a thrown error is translated directly.  The provider state is returned
alongside the result. -/
def SupabaseStorage.copy (S : SupabaseStorage) (oc : CallOutcome) (st : Store)
    (src dest : String) : Except DriveException RawV × Store :=
  match oc with
  | .ok => (.ok (.provData "move"), provMove st src dest)
  | .soft e => (.error (handleError (newError e.message) src S.folder), st)
  | .thrown e => (.error (handleError e src S.folder), st)

/-- The adapter's `delete` response: raw payload and the always-null
`wasDeleted` flag. -/
structure DeleteResponse where
  raw : RawV
  wasDeleted : Option Bool
deriving DecidableEq, Repr

/-- The adapter's `delete`: issues the provider's `remove([location])`. -/
def SupabaseStorage.delete (S : SupabaseStorage) (oc : CallOutcome) (st : Store)
    (location : String) : Except DriveException DeleteResponse × Store :=
  match oc with
  | .ok => (.ok ⟨.provData "remove", none⟩, storeRemove st location)
  | .soft e => (.error (handleError (newError e.message) location S.folder), st)
  | .thrown e => (.error (handleError e location S.folder), st)

/-- The adapter's `exists` response. -/
structure ExistsResponse where
  «exists» : Bool
  raw : RawV
deriving DecidableEq, Repr

/-- The adapter's `exists`: attempts a download; a caught error with status
code 404 becomes a normal `exists: false` result, any other caught error is
translated and thrown. -/
def SupabaseStorage.exists (S : SupabaseStorage) (oc : DlOutcome)
    (location : String) : Except DriveException ExistsResponse :=
  match runDl oc with
  | .ok d => .ok ⟨true, dataRaw d⟩
  | .error e =>
    if e.statusCode = some 404 then .ok ⟨false, .errObj e⟩
    else .error (handleError e location S.folder)

/-- A content response: decoded or raw content plus the raw payload. -/
structure ContentResponse (α : Type) where
  content : α
  raw : RawV
deriving DecidableEq, Repr

/-- The adapter's `getBuffer`: downloads the object and materializes its
bytes; with a null payload the optional chaining leaves the content
undefined. -/
def SupabaseStorage.getBuffer (S : SupabaseStorage) (oc : DlOutcome)
    (location : String) : Except DriveException (ContentResponse (Option (List Nat))) :=
  match runDl oc with
  | .ok d => .ok ⟨d, dataRaw d⟩
  | .error e => .error (handleError e location S.folder)

/-- The TypeError raised by calling a method on an undefined value. -/
def typeErrorUndefined : ErrObj := ⟨"TypeError", "Cannot read properties of undefined", none⟩

/-- The adapter's `get`: delegates to `getBuffer` and decodes the bytes with
`content.toString(encoding)` — an abstract decode function here; calling it
on undefined content raises a TypeError.  No catch clause of its own. -/
def SupabaseStorage.get (S : SupabaseStorage) (oc : DlOutcome) (location : String)
    (encoding : String) (toStr : String → List Nat → String) :
    Except Thrown (ContentResponse String) :=
  match S.getBuffer oc location with
  | .error e => .error (.drive e)
  | .ok bufferResult =>
    match bufferResult.content with
    | some bytes => .ok ⟨toStr encoding bytes, bufferResult.raw⟩
    | none => .error (.js typeErrorUndefined)

/-- Outcome of a provider `createSignedUrl` call: the success payload may be
null and may omit the `signedURL` field. -/
inductive SignOutcome where
  | ok (data : Option (Option String))
  | soft (e : ErrObj)
  | thrown (e : ErrObj)
deriving DecidableEq, Repr

/-- The adapter's signed-url response. -/
structure SignedUrlResponse where
  signedUrl : String
  raw : RawV
deriving DecidableEq, Repr

/-- JavaScript `v prefixed-or-defaulted` by the or-operator with a string
default: undefined, null and the empty string all fall through. -/
def jsOr (v : Option String) (dflt : String) : String :=
  match v with
  | some s => if s = "" then dflt else s
  | none => dflt

/-- The adapter's `getSignedUrl`: requests a signed url and defaults the
`signedURL` field of the payload to the empty string. -/
def SupabaseStorage.getSignedUrl (S : SupabaseStorage) (oc : SignOutcome)
    (location : String) : Except DriveException SignedUrlResponse :=
  match oc with
  | .ok data => .ok ⟨jsOr (data.bind id) "", .signData data⟩
  | .soft e => .error (handleError (newError e.message) location S.folder)
  | .thrown e => .error (handleError e location S.folder)

/-- The adapter's `getStat` response: byte size (undefined with a null
payload), modification instant, raw payload. -/
structure StatResponse where
  size : Option Nat
  modified : Nat
  raw : RawV
deriving DecidableEq, Repr

/-- The adapter's `getStat`: downloads the object to measure its byte length
and stamps the current wall-clock instant. -/
def SupabaseStorage.getStat (S : SupabaseStorage) (oc : DlOutcome) (now : Nat)
    (location : String) : Except DriveException StatResponse :=
  match runDl oc with
  | .ok d => .ok ⟨d.map List.length, now, dataRaw d⟩
  | .error e => .error (handleError e location S.folder)

/-- Result of the provider's synchronous `getPublicUrl` call. -/
structure PubUrlResult where
  publicURL : Option String
  error : Option ErrObj
deriving DecidableEq, Repr

/-- The adapter's `getUrl`: throws the untranslated `new Error(error.message)`
on a provider error, otherwise returns the public url defaulted to the empty
string. -/
def SupabaseStorage.getUrl (S : SupabaseStorage) (res : PubUrlResult)
    (location : String) : Except ErrObj String :=
  match res.error with
  | some e => .error (newError e.message)
  | none => .ok (jsOr res.publicURL "")

/-- The adapter's `move`: normalizes both paths with `_fullPath`, then runs
`copy` on the full keys followed by `delete` of the full source key; each
failing sub-operation propagates, and success returns an undefined raw. -/
def SupabaseStorage.move (S : SupabaseStorage) (ocCopy ocDelete : CallOutcome)
    (st : Store) (src dest : String) : Except DriveException RawV × Store :=
  let src' := S._fullPath src
  let dest' := S._fullPath dest
  match S.copy ocCopy st src' dest' with
  | (.error e, st1) => (.error e, st1)
  | (.ok _, st1) =>
    match S.delete ocDelete st1 src' with
    | (.error e, st2) => (.error e, st2)
    | (.ok _, st2) => (.ok .undef, st2)

/-- The adapter's `put`: uploads the content under the given key. -/
def SupabaseStorage.put (S : SupabaseStorage) (oc : CallOutcome) (st : Store)
    (location content : String) : Except DriveException RawV × Store :=
  match oc with
  | .ok => (.ok (.provData "upload"), storeSet st location content)
  | .soft e => (.error (handleError (newError e.message) location S.folder), st)
  | .thrown e => (.error (handleError e location S.folder), st)

/-- An event observed on the stream returned by `getStream`: piped bytes or
an emitted error. -/
inductive StreamEvent where
  | piped (bytes : List Nat)
  | errorEv (t : Thrown)
deriving DecidableEq, Repr

/-- The error built when the downloaded payload offers no stream. -/
def blobUnavailableError : ErrObj := newError "Blobclient stream was not available"

/-- The adapter's `getStream`: hands back a pass-through stream and lets the
chained continuation pipe the payload into it or emit the failure on it; a
result of `Except.ok events` means the stream object was returned to the
caller without a synchronous throw and `events` is what the continuation
later emits on it. -/
def SupabaseStorage.getStream (S : SupabaseStorage) (oc : DlOutcome)
    (location : String) : Except Thrown (List StreamEvent) :=
  match oc with
  | .ok bytes => .ok [.piped bytes]
  | .okNull => .ok [.errorEv (.drive (handleError blobUnavailableError location S.folder))]
  | .soft e => .ok [.errorEv (.js (newError e.message))]
  | .thrown e => .ok [.errorEv (.js e)]

/-- A directory entry of the provider's `list` payload. -/
structure FileEntry where
  name : String
deriving DecidableEq, Repr

/-- Outcome of a provider `list` call: the success payload may be null. -/
inductive ListOutcome where
  | ok (data : Option (List FileEntry))
  | soft (e : ErrObj)
  | thrown (e : ErrObj)
deriving DecidableEq, Repr

/-- One yielded element of `flatList`. -/
structure FileListResponse where
  raw : RawV
  path : String
deriving DecidableEq, Repr

/-- One iteration of the `flatList` loop body: a single provider `list` call,
yielding one pair per entry; a null payload yields nothing. -/
def flatListBody (folder pfx : String) (oc : ListOutcome) :
    Except DriveException (List FileListResponse) :=
  match oc with
  | .ok data =>
    .ok (match data with
      | some entries => entries.map (fun f => ⟨.fileEntry f.name, f.name⟩)
      | none => [])
  | .soft e => .error (handleError (newError e.message) pfx folder)
  | .thrown e => .error (handleError e pfx folder)

/-- The do-while pagination loop of `flatList` over a schedule of provider
call outcomes, with fuel bounding the hypothetical multi-page run; the
returned number counts the provider `list` calls made.  The continuation
token is checked after each body but never assigned inside it. -/
def SupabaseStorage.flatListLoop (S : SupabaseStorage) (pfx : String)
    (calls : Nat → ListOutcome) :
    Nat → Nat → Option String → Except DriveException (List FileListResponse × Nat)
  | fuel, k, continuationToken =>
    match flatListBody S.folder pfx (calls k) with
    | .error e => .error e
    | .ok out =>
      match continuationToken with
      | none => .ok (out, k + 1)
      | some t =>
        match fuel with
        | 0 => .error (handleError (newError "fuel exhausted") pfx S.folder)
        | fuel' + 1 =>
          (S.flatListLoop pfx calls fuel' (k + 1) (some t)).map
            (fun pr => (out ++ pr.1, pr.2))

/-- The adapter's `flatList`: normalizes the prefix with `_fullPath`, starts
the loop with an unpopulated continuation token. -/
def SupabaseStorage.flatList (S : SupabaseStorage) (calls : Nat → ListOutcome)
    (fuel : Nat) (pfx : String) : Except DriveException (List FileListResponse × Nat) :=
  S.flatListLoop (S._fullPath pfx) calls fuel 0 none

/-! ### Helper lemmas about the provider store -/

theorem storeGet_remove_self (st : Store) (k : String) :
    storeGet (storeRemove st k) k = none := by
  induction st with
  | nil => rfl
  | cons p rest ih =>
    obtain ⟨a, v⟩ := p
    by_cases h : a = k <;> simp [storeRemove, storeGet, h, ih]

theorem storeGet_remove_ne (st : Store) (j k : String) (h : j ≠ k) :
    storeGet (storeRemove st j) k = storeGet st k := by
  induction st with
  | nil => rfl
  | cons p rest ih =>
    obtain ⟨a, v⟩ := p
    by_cases hj : a = j
    · subst hj
      simp [storeRemove, storeGet, h, ih]
    · simp [storeRemove, storeGet, hj, ih]

/-- Shared fixture: adapter constructed with no root prefix. -/
def S0 : SupabaseStorage := SupabaseStorage.init ⟨"u", "s", "bkt", none, none⟩

/-- Shared fixture: adapter constructed with root prefix assets. -/
def S1 : SupabaseStorage := SupabaseStorage.init ⟨"u", "s", "bkt", some "assets", none⟩

/-! ### Claim C3: error classification -/

/-- C3: the error translator maps a provider error named NoSuchBucket to the
bucket-not-found portable error carrying the configured bucket name,
NoSuchKey to the object-not-found error carrying the requested path,
AllAccessDisabled to the permission error carrying the path, and any other
name to the unknown error carrying that name and the path. -/
theorem handleError_classification (e : ErrObj) (path bucket : String) :
    (e.name = "NoSuchBucket" → handleError e path bucket = .noSuchBucket e bucket) ∧
    (e.name = "NoSuchKey" → handleError e path bucket = .fileNotFound e path) ∧
    (e.name = "AllAccessDisabled" → handleError e path bucket = .permissionMissing e path) ∧
    (e.name ≠ "NoSuchBucket" → e.name ≠ "NoSuchKey" → e.name ≠ "AllAccessDisabled" →
      handleError e path bucket = .unknownException e e.name path) := by
  refine ⟨fun h => ?_, fun h => ?_, fun h => ?_, fun h1 h2 h3 => ?_⟩ <;>
    (unfold handleError; split <;> simp_all)

/-- Witness for C3 at four concrete errors, one per classification case. -/
theorem handleError_classification_witness :
    handleError ⟨"NoSuchBucket", "m", none⟩ "p" "b"
        = .noSuchBucket ⟨"NoSuchBucket", "m", none⟩ "b" ∧
    handleError ⟨"NoSuchKey", "m", none⟩ "p" "b"
        = .fileNotFound ⟨"NoSuchKey", "m", none⟩ "p" ∧
    handleError ⟨"AllAccessDisabled", "m", none⟩ "p" "b"
        = .permissionMissing ⟨"AllAccessDisabled", "m", none⟩ "p" ∧
    handleError ⟨"SlowDown", "m", none⟩ "p" "b"
        = .unknownException ⟨"SlowDown", "m", none⟩ "SlowDown" "p" :=
  ⟨(handleError_classification ⟨"NoSuchBucket", "m", none⟩ "p" "b").1 rfl,
   (handleError_classification ⟨"NoSuchKey", "m", none⟩ "p" "b").2.1 rfl,
   (handleError_classification ⟨"AllAccessDisabled", "m", none⟩ "p" "b").2.2.1 rfl,
   (handleError_classification ⟨"SlowDown", "m", none⟩ "p" "b").2.2.2
     (by decide) (by decide) (by decide)⟩

/-! ### Claim C10: url defaults -/

/-- C10: when the provider call succeeds but the payload omits the url
field (or the whole payload is null), getSignedUrl returns an empty signed
url and getUrl returns the empty string. -/
theorem url_defaults_to_empty (S : SupabaseStorage) (location : String) :
    S.getSignedUrl (.ok (some none)) location = .ok ⟨"", .signData (some none)⟩ ∧
    S.getSignedUrl (.ok none) location = .ok ⟨"", .signData none⟩ ∧
    S.getUrl ⟨none, none⟩ location = .ok "" :=
  ⟨rfl, rfl, rfl⟩

/-! ### Claim C2: exists and the not-found condition -/

/-- C2 (divergence witness): when the provider reports its not-found
condition for the download through the returned error object — name
NoSuchKey, status code 404 — exists does not return a normal
`exists: false` result: the rethrow as `new Error(message)` loses the status
code and the name, so the 404 test fails and the caught error is translated
to the unknown portable error and thrown.  A status code is honoured only on
the thrown-rejection channel. -/
theorem exists_notFound_throws_unknown :
    SupabaseStorage.exists S0 (.soft ⟨"NoSuchKey", "Object not found", some 404⟩) "a/b.txt"
      = .error (.unknownException ⟨"Error", "Object not found", none⟩ "Error" "a/b.txt") ∧
    SupabaseStorage.exists S0 (.thrown ⟨"NoSuchKey", "Object not found", some 404⟩) "a/b.txt"
      = .ok ⟨false, .errObj ⟨"NoSuchKey", "Object not found", some 404⟩⟩ ∧
    SupabaseStorage.exists S0 (.ok [104]) "a/b.txt" = .ok ⟨true, .blobData [104]⟩ := by
  refine ⟨rfl, rfl, rfl⟩

/-! ### Claim C4: original provider errors as causes -/

/-- C4 (divergence witness): at a provider call site reporting an error
through the returned error object, the thrown portable error does not wrap
the original error object as its cause: the cause is a fresh Error carrying
only the message, the original name and status code are discarded, and the
classification consequently degrades to the unknown case. -/
theorem copy_discards_original_error :
    (SupabaseStorage.copy S0
        (.soft ⟨"NoSuchBucket", "The specified bucket does not exist", some 404⟩)
        [] "s" "d").1
      = .error (.unknownException
          ⟨"Error", "The specified bucket does not exist", none⟩ "Error" "s") ∧
    DriveException.cause
        (.unknownException ⟨"Error", "The specified bucket does not exist", none⟩ "Error" "s")
      ≠ ⟨"NoSuchBucket", "The specified bucket does not exist", some 404⟩ := by
  refine ⟨rfl, by decide⟩

/-! ### Claim C8: getStream error channel -/

/-- C8: for every download outcome getStream hands the stream object back
without throwing (the result is always in the ok branch of the thrown-error
monad), and every failure of the underlying download — returned error,
thrown rejection, or unavailable payload stream — surfaces solely as a
single error event emitted on the returned stream; a successful download
pipes its bytes. -/
theorem getStream_never_throws (S : SupabaseStorage) (location : String) (oc : DlOutcome) :
    (∃ evs, S.getStream oc location = .ok evs) ∧
    (∀ bytes, oc = .ok bytes → S.getStream oc location = .ok [.piped bytes]) ∧
    (oc = .okNull → S.getStream oc location
        = .ok [.errorEv (.drive (handleError blobUnavailableError location S.folder))]) ∧
    (∀ e, oc = .soft e → S.getStream oc location
        = .ok [.errorEv (.js (newError e.message))]) ∧
    (∀ e, oc = .thrown e → S.getStream oc location = .ok [.errorEv (.js e)]) := by
  cases oc <;> refine ⟨⟨_, rfl⟩, ?_, ?_, ?_, ?_⟩ <;> intros <;>
    simp_all [SupabaseStorage.getStream]

/-- Witness for C8: a nonexistent key (provider reports not-found for the
download) still gets a stream back, which emits one error event. -/
theorem getStream_never_throws_witness :
    SupabaseStorage.getStream S0 (.soft ⟨"NoSuchKey", "not found", some 404⟩) "missing.txt"
      = .ok [.errorEv (.js ⟨"Error", "not found", none⟩)] :=
  (getStream_never_throws S0 "missing.txt" (.soft ⟨"NoSuchKey", "not found", some 404⟩)).2.2.2.1
    ⟨"NoSuchKey", "not found", some 404⟩ rfl

/-! ### Claim C9: flatList pagination -/

/-- C9: the flatList pagination loop makes exactly one listing call whatever
fuel the do-while loop is given, because the continuation token is never
populated; a successful call yields one raw-and-path pair per entry of the
single page, a null or empty page yields the empty sequence, and a failing
call yields the translated error. -/
theorem flatList_single_page (S : SupabaseStorage) (calls : Nat → ListOutcome)
    (fuel : Nat) (pfx : String) (entries : List FileEntry) (e : ErrObj) :
    (calls 0 = .ok (some entries) →
      S.flatList calls fuel pfx
        = .ok (entries.map (fun f => ⟨.fileEntry f.name, f.name⟩), 1)) ∧
    (calls 0 = .ok none → S.flatList calls fuel pfx = .ok ([], 1)) ∧
    (calls 0 = .soft e → S.flatList calls fuel pfx
        = .error (handleError (newError e.message) (S._fullPath pfx) S.folder)) ∧
    (calls 0 = .thrown e → S.flatList calls fuel pfx
        = .error (handleError e (S._fullPath pfx) S.folder)) := by
  refine ⟨fun h => ?_, fun h => ?_, fun h => ?_, fun h => ?_⟩ <;>
    simp [SupabaseStorage.flatList, SupabaseStorage.flatListLoop, flatListBody, h]

/-- Witness for C9: a two-entry page is listed with one provider call; an
empty page gives the empty sequence. -/
theorem flatList_single_page_witness :
    SupabaseStorage.flatList S0 (fun _ => .ok (some [⟨"f1"⟩, ⟨"f2"⟩])) 7 ""
      = .ok ([⟨.fileEntry "f1", "f1"⟩, ⟨.fileEntry "f2", "f2"⟩], 1) ∧
    SupabaseStorage.flatList S0 (fun _ => .ok (some [])) 7 "" = .ok ([], 1) :=
  ⟨(flatList_single_page S0 (fun _ => .ok (some [⟨"f1"⟩, ⟨"f2"⟩])) 7 "" [⟨"f1"⟩, ⟨"f2"⟩]
      ⟨"", "", none⟩).1 rfl,
   (flatList_single_page S0 (fun _ => .ok (some [])) 7 "" [] ⟨"", "", none⟩).1 rfl⟩

/-! ### Claim C7: get delegates to getBuffer -/

/-- C7: under the provider contract that a successful download carries a
payload, whenever getBuffer succeeds, get succeeds with content equal to the
decode (content.toString with the requested encoding, abstracted as toStr) of
getBuffer's byte content and with the same raw payload; whenever getBuffer
fails, get propagates exactly getBuffer's thrown error. -/
theorem get_decodes_getBuffer (S : SupabaseStorage) (oc : DlOutcome)
    (location encoding : String) (toStr : String → List Nat → String)
    (h : oc ≠ .okNull) :
    (∀ r, S.getBuffer oc location = .ok r →
      ∃ bytes, r.content = some bytes ∧
        S.get oc location encoding toStr = .ok ⟨toStr encoding bytes, r.raw⟩) ∧
    (∀ d, S.getBuffer oc location = .error d →
      S.get oc location encoding toStr = .error (.drive d)) := by
  cases oc with
  | ok bytes =>
    refine ⟨fun r hr => ?_, fun d hd => ?_⟩
    · rw [show S.getBuffer (.ok bytes) location = .ok ⟨some bytes, .blobData bytes⟩ from rfl]
        at hr
      injection hr with h2
      subst h2
      exact ⟨bytes, rfl, rfl⟩
    · simp_all [SupabaseStorage.getBuffer, runDl]
  | okNull => exact absurd rfl h
  | soft e =>
    refine ⟨fun r hr => ?_, fun d hd => ?_⟩ <;>
      simp_all [SupabaseStorage.getBuffer, SupabaseStorage.get, runDl]
  | thrown e =>
    refine ⟨fun r hr => ?_, fun d hd => ?_⟩ <;>
      simp_all [SupabaseStorage.getBuffer, SupabaseStorage.get, runDl]

/-- Witness for C7: a download of the bytes of the word hi, decoded by a
concrete byte-to-character decode. -/
theorem get_decodes_getBuffer_witness :
    SupabaseStorage.get S0 (.ok [104, 105]) "a/b.txt" "utf-8"
        (fun _ bs => String.mk (bs.map Char.ofNat))
      = .ok ⟨"hi", .blobData [104, 105]⟩ := by
  obtain ⟨bytes, hb, hg⟩ :=
    (get_decodes_getBuffer S0 (.ok [104, 105]) "a/b.txt" "utf-8"
        (fun _ bs => String.mk (bs.map Char.ofNat)) (by decide)).1
      ⟨some [104, 105], .blobData [104, 105]⟩ rfl
  obtain rfl : bytes = [104, 105] := by simpa using hb.symm
  exact hg

/-! ### Claim C1: move respects copy-then-delete, but copy renames -/

/-- C1 (counterexample): when delete fails after a successful copy, the
object does not exist at both locations — the provider primitive behind copy
is a rename, so the source key is already gone: after moving the key a to b
on a store holding a, with a failing delete, the delete error propagates, b
holds the content, and a holds nothing. -/
theorem move_no_duplication_counterexample :
    (SupabaseStorage.move S0 .ok (.soft ⟨"NetworkError", "boom", none⟩)
        [("a", "1")] "a" "b").1
      = .error (.unknownException ⟨"Error", "boom", none⟩ "Error" "a") ∧
    storeGet (SupabaseStorage.move S0 .ok (.soft ⟨"NetworkError", "boom", none⟩)
        [("a", "1")] "a" "b").2 "b" = some "1" ∧
    storeGet (SupabaseStorage.move S0 .ok (.soft ⟨"NetworkError", "boom", none⟩)
        [("a", "1")] "a" "b").2 "a" = none := by
  exact ⟨rfl, rfl, rfl⟩

/-- C1 (amended): move first normalizes both relative paths with the path
normalizer, then performs copy on the two full keys followed by delete of
the full source key, in that order; it propagates the first failing
sub-operation — delete is not attempted and the store is untouched when copy
throws — performs no rollback, and on success returns an undefined raw; if
delete fails after a successful copy, the object exists at the destination
but, copy being the provider's rename primitive, no longer at the source. -/
theorem move_copy_then_delete (S : SupabaseStorage) (st : Store) (src dest : String)
    (ocD : CallOutcome) (e : ErrObj) (c : String) :
    (S.move (.soft e) ocD st src dest
      = (.error (handleError (newError e.message) (S._fullPath src) S.folder), st)) ∧
    (S.move (.thrown e) ocD st src dest
      = (.error (handleError e (S._fullPath src) S.folder), st)) ∧
    (S.move .ok (.soft e) st src dest
      = (.error (handleError (newError e.message) (S._fullPath src) S.folder),
         provMove st (S._fullPath src) (S._fullPath dest))) ∧
    (S.move .ok .ok st src dest
      = (.ok .undef,
         storeRemove (provMove st (S._fullPath src) (S._fullPath dest)) (S._fullPath src))) ∧
    (storeGet st (S._fullPath src) = some c → S._fullPath src ≠ S._fullPath dest →
      storeGet (S.move .ok (.soft e) st src dest).2 (S._fullPath dest) = some c ∧
      storeGet (S.move .ok (.soft e) st src dest).2 (S._fullPath src) = none) := by
  refine ⟨rfl, rfl, rfl, rfl, fun hg hne => ?_⟩
  have h2 : (S.move .ok (.soft e) st src dest).2
      = provMove st (S._fullPath src) (S._fullPath dest) := rfl
  rw [h2]
  unfold provMove
  rw [hg]
  refine ⟨by simp [storeSet, storeGet], ?_⟩
  simp [storeSet, storeGet, Ne.symm hne,
    storeGet_remove_ne _ _ _ (Ne.symm hne), storeGet_remove_self]

/-- Witness for C1: with root prefix assets, moving the key of an image
normalizes to the assets keys; a clean move relocates the object and returns
an undefined raw, and a failed delete after the copy leaves the object only
at the destination. -/
theorem move_copy_then_delete_witness :
    SupabaseStorage.move S0 .ok .ok [("a", "1")] "a" "b" = (.ok .undef, [("b", "1")]) ∧
    storeGet (SupabaseStorage.move S1 .ok (.soft ⟨"X", "boom", none⟩)
        [("assets/x.png", "img")] "x.png" "y.png").2 "assets/y.png" = some "img" ∧
    storeGet (SupabaseStorage.move S1 .ok (.soft ⟨"X", "boom", none⟩)
        [("assets/x.png", "img")] "x.png" "y.png").2 "assets/x.png" = none := by
  have h0 := move_copy_then_delete S0 [("a", "1")] "a" "b" .ok ⟨"X", "boom", none⟩ "1"
  have h1 := move_copy_then_delete S1 [("assets/x.png", "img")] "x.png" "y.png" .ok
    ⟨"X", "boom", none⟩ "img"
  have h5 := h1.2.2.2.2 (by decide) (by decide)
  exact ⟨h0.2.2.2.1, h5.1, h5.2⟩

/-! ### Lemmas about the split, strip and join of normalize-path -/

/-- A string whose characters are all non-separators. -/
def SepFree (s : String) : Prop := ∀ c ∈ s.data, isSep c = false

theorem strEq_of_data {a b : String} (h : a.data = b.data) : a = b :=
  congrArg String.mk h

theorem data_ne_nil_of_ne_empty {s : String} (h : s ≠ "") : s.data ≠ [] := by
  intro hd
  exact h (strEq_of_data hd)

theorem ne_empty_of_data_ne_nil {s : String} (h : s.data ≠ []) : s ≠ "" := by
  intro he
  subst he
  exact h rfl

theorem splitBy_ne_nil (sep : Char → Bool) (cs : List Char) : splitBy sep cs ≠ [] := by
  induction cs with
  | nil => simp [splitBy]
  | cons c cs ih =>
    by_cases h : sep c = true
    · simp [splitBy, h]
    · have he : splitBy sep (c :: cs) = consHead c (splitBy sep cs) := by
        simp [splitBy, h]
      rw [he]
      cases hs : splitBy sep cs with
      | nil => exact absurd hs ih
      | cons a as => simp [consHead]

theorem splitBy_cons_shape (sep : Char → Bool) (cs : List Char) :
    ∃ b bs, splitBy sep cs = b :: bs := by
  cases h : splitBy sep cs with
  | nil => exact absurd h (splitBy_ne_nil sep cs)
  | cons b bs => exact ⟨b, bs, rfl⟩

theorem mem_splitBy_sepFree (sep : Char → Bool) (cs : List Char) :
    ∀ s ∈ splitBy sep cs, ∀ c ∈ s.data, sep c = false := by
  induction cs with
  | nil =>
    intro s hs c hc
    simp [splitBy] at hs
    subst hs
    simp at hc
  | cons a as ih =>
    intro s hs c hc
    obtain ⟨b, bs, hsp⟩ := splitBy_cons_shape sep as
    by_cases h : sep a = true
    · simp only [splitBy, if_pos h, List.mem_cons] at hs
      rcases hs with hs | hs
      · subst hs; simp at hc
      · exact ih s hs c hc
    · have he : splitBy sep (a :: as) = consHead a (splitBy sep as) := by
        simp [splitBy, h]
      rw [he, hsp] at hs
      simp only [consHead, List.mem_cons] at hs
      rcases hs with hs | hs
      · subst hs
        simp only [List.mem_cons] at hc
        rcases hc with hc | hc
        · subst hc
          simpa using h
        · exact ih b (by rw [hsp]; exact List.mem_cons_self b bs) c hc
      · exact ih s (by rw [hsp]; exact List.mem_cons_of_mem b hs) c hc

theorem mem_splitBy_subset (sep : Char → Bool) (cs : List Char) :
    ∀ s ∈ splitBy sep cs, ∀ c ∈ s.data, c ∈ cs := by
  induction cs with
  | nil =>
    intro s hs c hc
    simp [splitBy] at hs
    subst hs
    simp at hc
  | cons a as ih =>
    intro s hs c hc
    obtain ⟨b, bs, hsp⟩ := splitBy_cons_shape sep as
    by_cases h : sep a = true
    · simp only [splitBy, if_pos h, List.mem_cons] at hs
      rcases hs with hs | hs
      · subst hs; simp at hc
      · exact List.mem_cons_of_mem a (ih s hs c hc)
    · have he : splitBy sep (a :: as) = consHead a (splitBy sep as) := by
        simp [splitBy, h]
      rw [he, hsp] at hs
      simp only [consHead, List.mem_cons] at hs
      rcases hs with hs | hs
      · subst hs
        simp only [List.mem_cons] at hc
        rcases hc with hc | hc
        · subst hc; exact List.mem_cons_self c as
        · exact List.mem_cons_of_mem a
            (ih b (by rw [hsp]; exact List.mem_cons_self b bs) c hc)
      · exact List.mem_cons_of_mem a
          (ih s (by rw [hsp]; exact List.mem_cons_of_mem b hs) c hc)

theorem splitBy_sepFree_eq (sep : Char → Bool) (xs : List Char)
    (h : ∀ c ∈ xs, sep c = false) : splitBy sep xs = [String.mk xs] := by
  induction xs with
  | nil => rfl
  | cons c cs ih =>
    have hc : sep c = false := h c (List.mem_cons_self c cs)
    have ih' := ih (fun d hd => h d (List.mem_cons_of_mem c hd))
    have he : splitBy sep (c :: cs) = consHead c (splitBy sep cs) := by
      simp [splitBy, hc]
    rw [he, ih']
    rfl

/-- Helper for reasoning about splits of an appended prefix: glue characters
onto the first segment. -/
def prependChars (xs : List Char) : List String → List String
  | [] => [String.mk xs]
  | s :: r => String.mk (xs ++ s.data) :: r

theorem consHead_prependChars (c : Char) (xs : List Char) (l : List String) :
    consHead c (prependChars xs l) = prependChars (c :: xs) l := by
  cases l <;> rfl

theorem str_empty_append (s : String) : "" ++ s = s := rfl

theorem splitBy_append_sepFree (sep : Char → Bool) (xs ys : List Char)
    (h : ∀ c ∈ xs, sep c = false) :
    splitBy sep (xs ++ ys) = prependChars xs (splitBy sep ys) := by
  induction xs with
  | nil =>
    obtain ⟨b, bs, hsp⟩ := splitBy_cons_shape sep ys
    rw [List.nil_append, hsp]
    rfl
  | cons c cs ih =>
    have hc : sep c = false := h c (List.mem_cons_self c cs)
    have he : splitBy sep (c :: (cs ++ ys)) = consHead c (splitBy sep (cs ++ ys)) := by
      simp [splitBy, hc]
    rw [List.cons_append, he, ih (fun d hd => h d (List.mem_cons_of_mem c hd)),
      consHead_prependChars]

theorem joinSegs_cons_cons_data (s t : String) (ts : List String) :
    (joinSegs (s :: t :: ts)).data = s.data ++ '/' :: (joinSegs (t :: ts)).data := by
  show (s ++ "/" ++ joinSegs (t :: ts)).data = _
  rw [String.data_append, String.data_append, List.append_assoc]
  rfl

theorem splitBy_joinSegs (sep : Char → Bool) (hsep : sep '/' = true) :
    ∀ segs : List String, (∀ s ∈ segs, ∀ c ∈ s.data, sep c = false) → segs ≠ [] →
      splitBy sep (joinSegs segs).data = segs := by
  intro segs
  induction segs with
  | nil => intro _ hne; exact absurd rfl hne
  | cons s rest ih =>
    intro hf _
    cases rest with
    | nil =>
      show splitBy sep s.data = [s]
      rw [splitBy_sepFree_eq sep s.data (hf s (List.mem_cons_self s []))]
    | cons t ts =>
      rw [joinSegs_cons_cons_data,
        splitBy_append_sepFree sep _ _ (hf s (List.mem_cons_self s (t :: ts)))]
      have hsl : splitBy sep ('/' :: (joinSegs (t :: ts)).data)
          = "" :: splitBy sep (joinSegs (t :: ts)).data := by
        simp [splitBy, hsep]
      rw [hsl, ih (fun a ha c hc => hf a (List.mem_cons_of_mem s ha) c hc) (by simp)]
      show String.mk (s.data ++ []) :: t :: ts = s :: t :: ts
      rw [List.append_nil]

/-- Every element of a list of segments is nonempty. -/
def AllNE (l : List String) : Prop := ∀ s ∈ l, s ≠ ""

/-- Every element except possibly the last is nonempty. -/
def MidNE : List String → Prop
  | [] => True
  | [_] => True
  | s :: t :: ts => s ≠ "" ∧ MidNE (t :: ts)

theorem midNE_cons {s : String} {l : List String} (h1 : s ≠ "") (h2 : MidNE l) :
    MidNE (s :: l) := by
  cases l with
  | nil => trivial
  | cons t ts => exact ⟨h1, h2⟩

theorem dropInner_midNE (l : List String) : MidNE (dropInnerEmptyTail l) := by
  induction l with
  | nil => trivial
  | cons s rest ih =>
    cases rest with
    | nil => trivial
    | cons t ts =>
      by_cases hs : s = ""
      · simpa [dropInnerEmptyTail, hs] using ih
      · simp only [dropInnerEmptyTail, if_neg hs]
        exact midNE_cons hs ih

theorem dropInner_subset (l : List String) :
    ∀ s ∈ dropInnerEmptyTail l, s ∈ l := by
  induction l with
  | nil => intro s hs; simp [dropInnerEmptyTail] at hs
  | cons a rest ih =>
    cases rest with
    | nil => intro s hs; simp only [dropInnerEmptyTail] at hs; exact hs
    | cons t ts =>
      intro s hs
      by_cases ha : a = ""
      · simp only [dropInnerEmptyTail, if_pos ha] at hs
        exact List.mem_cons_of_mem a (ih s hs)
      · simp only [dropInnerEmptyTail, if_neg ha, List.mem_cons] at hs
        rcases hs with hs | hs
        · subst hs; exact List.mem_cons_self s (t :: ts)
        · exact List.mem_cons_of_mem a (ih s hs)

theorem dropInner_allNE_eq (l : List String) (h : AllNE l) :
    dropInnerEmptyTail l = l := by
  induction l with
  | nil => rfl
  | cons s rest ih =>
    cases rest with
    | nil => rfl
    | cons t ts =>
      have hs : s ≠ "" := h s (List.mem_cons_self s (t :: ts))
      simp only [dropInnerEmptyTail, if_neg hs]
      rw [ih (fun a ha => h a (List.mem_cons_of_mem s ha))]

theorem stripTrail_allNE_eq (l : List String) (h : AllNE l) :
    stripTrail l = l := by
  induction l with
  | nil => rfl
  | cons s rest ih =>
    cases rest with
    | nil =>
      have hs : s ≠ "" := h s (List.mem_cons_self s [])
      simp [stripTrail, hs]
    | cons t ts =>
      show s :: stripTrail (t :: ts) = s :: t :: ts
      rw [ih (fun a ha => h a (List.mem_cons_of_mem s ha))]

theorem stripTrail_midNE_allNE (l : List String) (h : MidNE l) :
    AllNE (stripTrail l) := by
  induction l with
  | nil => intro s hs; simp [stripTrail] at hs
  | cons s rest ih =>
    cases rest with
    | nil =>
      intro a ha
      by_cases hs : s = ""
      · simp [stripTrail, hs] at ha
      · simp only [stripTrail, if_neg hs, List.mem_singleton] at ha
        subst ha; exact hs
    | cons t ts =>
      obtain ⟨h1, h2⟩ := h
      intro a ha
      show a ≠ ""
      have hst : stripTrail (s :: t :: ts) = s :: stripTrail (t :: ts) := rfl
      rw [hst, List.mem_cons] at ha
      rcases ha with ha | ha
      · subst ha; exact h1
      · exact ih h2 a ha

theorem stripTrail_subset (l : List String) :
    ∀ s ∈ stripTrail l, s ∈ l := by
  induction l with
  | nil => intro s hs; simp [stripTrail] at hs
  | cons a rest ih =>
    cases rest with
    | nil =>
      intro s hs
      by_cases ha : a = ""
      · simp [stripTrail, ha] at hs
      · simp only [stripTrail, if_neg ha, List.mem_singleton] at hs
        subst hs; exact List.mem_cons_self s []
    | cons t ts =>
      intro s hs
      have hst : stripTrail (a :: t :: ts) = a :: stripTrail (t :: ts) := rfl
      rw [hst, List.mem_cons] at hs
      rcases hs with hs | hs
      · subst hs; exact List.mem_cons_self s (t :: ts)
      · exact List.mem_cons_of_mem a (ih s hs)

theorem data_cons_shape {x : String} (hx : x ≠ "") : ∃ c cs, x.data = c :: cs := by
  cases hd : x.data with
  | nil => exact absurd hd (data_ne_nil_of_ne_empty hx)
  | cons c cs => exact ⟨c, cs, rfl⟩

theorem joinSegs_head (x : String) (l : List String) (hx : x ≠ "") :
    (joinSegs (x :: l)).data.head? = x.data.head? := by
  obtain ⟨c, cs, hcd⟩ := data_cons_shape hx
  cases l with
  | nil => rfl
  | cons t ts =>
    rw [joinSegs_cons_cons_data, hcd]
    rfl

theorem joinSegs_chars (l : List String) :
    ∀ c ∈ (joinSegs l).data, c = '/' ∨ ∃ s ∈ l, c ∈ s.data := by
  induction l with
  | nil => intro c hc; simp [joinSegs] at hc
  | cons s rest ih =>
    cases rest with
    | nil =>
      intro c hc
      exact Or.inr ⟨s, List.mem_cons_self s [], hc⟩
    | cons t ts =>
      intro c hc
      rw [joinSegs_cons_cons_data, List.mem_append] at hc
      rcases hc with hc | hc
      · exact Or.inr ⟨s, List.mem_cons_self s (t :: ts), hc⟩
      · rw [List.mem_cons] at hc
        rcases hc with hc | hc
        · exact Or.inl hc
        · rcases ih c hc with h | ⟨a, ha, hca⟩
          · exact Or.inl h
          · exact Or.inr ⟨a, List.mem_cons_of_mem s ha, hca⟩

theorem joinSegs_cons_ne_len (u : String) (us : List String) (hu : u ≠ "") :
    1 ≤ (joinSegs (u :: us)).length := by
  cases us with
  | nil =>
    show 1 ≤ u.length
    have := data_ne_nil_of_ne_empty hu
    cases hd : u.data with
    | nil => exact absurd hd this
    | cons c cs =>
      show 1 ≤ u.data.length
      rw [hd]
      simp
  | cons w ws =>
    show 1 ≤ (u ++ "/" ++ joinSegs (w :: ws)).length
    rw [String.length_append, String.length_append]
    have hone : ("/" : String).length = 1 := rfl
    omega

theorem joinSegs_len2 (s u : String) (us : List String) (hu : u ≠ "") :
    2 ≤ (joinSegs (s :: u :: us)).length := by
  have h1 := joinSegs_cons_ne_len u us hu
  show 2 ≤ (s ++ "/" ++ joinSegs (u :: us)).length
  rw [String.length_append, String.length_append]
  have : ("/" : String).length = 1 := rfl
  omega

theorem sepFree_not_special {s : String} (hsf : SepFree s) :
    ¬(s = "\\" ∨ s = "/") := by
  rintro (rfl | rfl)
  · have := hsf '\\' (by decide)
    simp [isSep] at this
  · have := hsf '/' (by decide)
    simp [isSep] at this

theorem sepFree_not_unc {s : String} (hsf : SepFree s) : ¬ uncCond s := by
  intro hc
  have hbs : '\\' ∈ s.data := List.get?_mem hc.2.1
  have := hsf '\\' hbs
  simp [isSep] at this

/-- A nonempty separator-free string is a fixed point of normalize-path. -/
theorem normalizePath_single (s : String) (hs : s ≠ "") (hsf : SepFree s) :
    normalizePath s = s := by
  have h1 := sepFree_not_special hsf
  by_cases h2 : s.length ≤ 1
  · simp [normalizePath, h1, h2]
  · have hunc := sepFree_not_unc hsf
    have hss : splitSeps s = [s] := by
      unfold splitSeps
      rw [splitBy_sepFree_eq isSep s.data hsf]
      rfl
    have hstr : stripTrail [s] = [s] := by simp [stripTrail, hs]
    simp [normalizePath, h1, h2, hunc, hss, hstr, joinSegs]

/-- A join of separator-free segments whose tail is nonempty-elementwise is a
fixed point of normalize-path. -/
theorem normalizePath_multi (x u : String) (us : List String)
    (hall : ∀ s ∈ x :: u :: us, SepFree s) (hAll : AllNE (u :: us)) :
    normalizePath (joinSegs (x :: u :: us)) = joinSegs (x :: u :: us) := by
  have hu : u ≠ "" := hAll u (List.mem_cons_self u us)
  have hlen := joinSegs_len2 x u us hu
  have h1 : ¬(joinSegs (x :: u :: us) = "\\" ∨ joinSegs (x :: u :: us) = "/") := by
    rintro (h | h) <;> rw [h] at hlen <;> exact absurd hlen (by decide)
  have h2 : ¬(joinSegs (x :: u :: us)).length ≤ 1 := by omega
  have hnb : ¬ uncCond (joinSegs (x :: u :: us)) := by
    intro hc
    have hbs : '\\' ∈ (joinSegs (x :: u :: us)).data := List.get?_mem hc.2.1
    rcases joinSegs_chars _ '\\' hbs with h | ⟨s, hsl, hcs⟩
    · exact absurd h (by decide)
    · have := hall s hsl '\\' hcs
      simp [isSep] at this
  have hsplit : splitBy isSep (joinSegs (x :: u :: us)).data = x :: u :: us :=
    splitBy_joinSegs isSep (by decide) _ (fun a ha c hc => hall a ha c hc) (by simp)
  have hss : splitSeps (joinSegs (x :: u :: us)) = x :: u :: us := by
    unfold splitSeps
    rw [hsplit]
    show x :: dropInnerEmptyTail (u :: us) = x :: u :: us
    rw [dropInner_allNE_eq _ hAll]
  have hstr : stripTrail (x :: u :: us) = x :: u :: us := by
    show x :: stripTrail (u :: us) = x :: u :: us
    rw [stripTrail_allNE_eq _ hAll]
  simp [normalizePath, h1, h2, hnb, hss, hstr]

theorem splitSeps_shape (p : String) :
    ∃ h t, splitBy isSep p.data = h :: t ∧
      splitSeps p = h :: dropInnerEmptyTail t := by
  obtain ⟨h, t, hsp⟩ := splitBy_cons_shape isSep p.data
  refine ⟨h, t, hsp, ?_⟩
  unfold splitSeps
  rw [hsp]

theorem mem_splitSeps_sepFree (p : String) : ∀ s ∈ splitSeps p, SepFree s := by
  obtain ⟨h, t, hsp, hss⟩ := splitSeps_shape p
  intro s hs
  rw [hss, List.mem_cons] at hs
  rcases hs with hs | hs
  · subst hs
    exact fun c hc => mem_splitBy_sepFree isSep p.data s (by rw [hsp]; exact List.mem_cons_self s t) c hc
  · have : s ∈ t := dropInner_subset t s hs
    exact fun c hc =>
      mem_splitBy_sepFree isSep p.data s (by rw [hsp]; exact List.mem_cons_of_mem h this) c hc

theorem stripTrail_splitSeps_tail_allNE (p : String) (x : String) (l : List String)
    (he : stripTrail (splitSeps p) = x :: l) : AllNE l := by
  obtain ⟨h, t, hsp, hss⟩ := splitSeps_shape p
  rw [hss] at he
  cases hd : dropInnerEmptyTail t with
  | nil =>
    rw [hd] at he
    by_cases hh : h = ""
    · simp [stripTrail, hh] at he
    · simp only [stripTrail, if_neg hh] at he
      obtain ⟨rfl, rfl⟩ := List.cons.inj he
      intro a ha
      simp at ha
  | cons d ds =>
    rw [hd] at he
    have he2 : h :: stripTrail (d :: ds) = x :: l := he
    obtain ⟨rfl, rfl⟩ := List.cons.inj he2
    have hmid : MidNE (d :: ds) := by
      have := dropInner_midNE t
      rw [hd] at this
      exact this
    exact stripTrail_midNE_allNE (d :: ds) hmid

/-! ### Lemmas about the posix join and normalize -/

theorem resolveDots_mem (a : Bool) :
    ∀ (l acc : List String), ∀ s ∈ resolveDots a acc l, s ∈ acc ∨ s ∈ l ∨ s = ".." := by
  intro l
  induction l with
  | nil =>
    intro acc s hs
    simp only [resolveDots] at hs
    exact Or.inl (List.mem_reverse.mp hs)
  | cons x xs ih =>
    intro acc s hs
    by_cases hx1 : x = "" ∨ x = "."
    · simp only [resolveDots, if_pos hx1] at hs
      rcases ih acc s hs with h | h | h
      · exact Or.inl h
      · exact Or.inr (Or.inl (List.mem_cons_of_mem x h))
      · exact Or.inr (Or.inr h)
    · by_cases hx2 : x = ".."
      · cases acc with
        | nil =>
          simp only [resolveDots, if_neg hx1, if_pos hx2] at hs
          rcases ih _ s hs with h | h | h
          · cases a with
            | true =>
              simp only [if_pos] at h
              rw [List.mem_singleton] at h
              exact Or.inr (Or.inr h)
            | false => simp at h
          · exact Or.inr (Or.inl (List.mem_cons_of_mem x h))
          · exact Or.inr (Or.inr h)
        | cons t acc' =>
          by_cases ht : t = ".."
          · simp only [resolveDots, if_neg hx1, if_pos hx2, if_pos ht] at hs
            rcases ih _ s hs with h | h | h
            · cases a with
              | true =>
                simp only [if_pos] at h
                rw [List.mem_cons] at h
                rcases h with h | h
                · subst h; exact Or.inr (Or.inr hx2)
                · exact Or.inl h
              | false =>
                exact Or.inl h
            · exact Or.inr (Or.inl (List.mem_cons_of_mem x h))
            · exact Or.inr (Or.inr h)
          · simp only [resolveDots, if_neg hx1, if_pos hx2, if_neg ht] at hs
            rcases ih _ s hs with h | h | h
            · exact Or.inl (List.mem_cons_of_mem t h)
            · exact Or.inr (Or.inl (List.mem_cons_of_mem x h))
            · exact Or.inr (Or.inr h)
      · simp only [resolveDots, if_neg hx1, if_neg hx2] at hs
        rcases ih _ s hs with h | h | h
        · rw [List.mem_cons] at h
          rcases h with h | h
          · subst h; exact Or.inr (Or.inl (List.mem_cons_self s xs))
          · exact Or.inl h
        · exact Or.inr (Or.inl (List.mem_cons_of_mem x h))
        · exact Or.inr (Or.inr h)

theorem resolveDots_ne (a : Bool) :
    ∀ (l acc : List String), (∀ s ∈ acc, s ≠ "") →
      ∀ s ∈ resolveDots a acc l, s ≠ "" := by
  intro l
  induction l with
  | nil =>
    intro acc hacc s hs
    simp only [resolveDots] at hs
    exact hacc s (List.mem_reverse.mp hs)
  | cons x xs ih =>
    intro acc hacc s hs
    by_cases hx1 : x = "" ∨ x = "."
    · simp only [resolveDots, if_pos hx1] at hs
      exact ih acc hacc s hs
    · by_cases hx2 : x = ".."
      · cases acc with
        | nil =>
          simp only [resolveDots, if_neg hx1, if_pos hx2] at hs
          refine ih _ ?_ s hs
          intro b hb
          cases a with
          | true =>
            simp only [if_pos] at hb
            rw [List.mem_singleton] at hb
            subst hb; decide
          | false => simp at hb
        | cons t acc' =>
          have hne : ∀ b ∈ t :: acc', b ≠ "" := hacc
          by_cases ht : t = ".."
          · simp only [resolveDots, if_neg hx1, if_pos hx2, if_pos ht] at hs
            refine ih _ ?_ s hs
            intro b hb
            cases a with
            | true =>
              simp only [if_pos] at hb
              rw [List.mem_cons] at hb
              rcases hb with hb | hb
              · subst hb; subst hx2; decide
              · exact hne b hb
            | false =>
              exact hne b hb
          · simp only [resolveDots, if_neg hx1, if_pos hx2, if_neg ht] at hs
            exact ih _ (fun b hb => hne b (List.mem_cons_of_mem t hb)) s hs
      · simp only [resolveDots, if_neg hx1, if_neg hx2] at hs
        refine ih _ ?_ s hs
        intro b hb
        rw [List.mem_cons] at hb
        rcases hb with hb | hb
        · subst hb
          intro hbe
          exact hx1 (Or.inl hbe)
        · exact hacc b hb

theorem isSep_false_of {d : Char} (h1 : d ≠ '/') (h2 : d ≠ '\\') : isSep d = false := by
  simp [isSep, h1, h2]

theorem strAppend_head (a b : String) (ha : a ≠ "") :
    (a ++ b).data.head? = a.data.head? := by
  obtain ⟨c, cs, hcd⟩ := data_cons_shape ha
  rw [String.data_append, hcd]
  rfl

theorem dot_data : (".".data : List Char) = ['.'] := rfl

theorem slash_data : ("/".data : List Char) = ['/'] := rfl

theorem dotSlash_data : ("./".data : List Char) = ['.', '/'] := rfl

theorem dotdot_data : ("..".data : List Char) = ['.', '.'] := rfl

theorem posixBody_chars (p : String) :
    ∀ c ∈ (posixBody p).data, c = '/' ∨ c = '.' ∨ c ∈ p.data := by
  intro c hc
  rcases joinSegs_chars _ c hc with h | ⟨s, hsm, hcs⟩
  · exact Or.inl h
  · rcases resolveDots_mem _ _ _ s hsm with h | h | h
    · simp at h
    · exact Or.inr (Or.inr (mem_splitBy_subset _ p.data s h c hcs))
    · subst h
      rw [dotdot_data, List.mem_cons, List.mem_singleton] at hcs
      have : c = '.' := by rcases hcs with hcs | hcs <;> exact hcs
      exact Or.inr (Or.inl this)

theorem posixNormalize_chars (p : String) :
    ∀ c ∈ (posixNormalize p).data, c = '/' ∨ c = '.' ∨ c ∈ p.data := by
  by_cases hq : p = ""
  · subst hq
    intro c hc
    have h1 : posixNormalize "" = "." := rfl
    rw [h1, dot_data, List.mem_singleton] at hc
    exact Or.inr (Or.inl hc)
  · intro c hc
    simp only [posixNormalize, if_neg hq] at hc
    by_cases hb : posixBody p = ""
    · rw [if_pos hb] at hc
      by_cases h1 : strHead? p = some '/'
      · rw [if_pos h1, slash_data, List.mem_singleton] at hc
        exact Or.inl hc
      · rw [if_neg h1] at hc
        by_cases h2 : strLast? p = some '/'
        · rw [if_pos h2, dotSlash_data, List.mem_cons, List.mem_singleton] at hc
          rcases hc with hc | hc
          · exact Or.inr (Or.inl hc)
          · exact Or.inl hc
        · rw [if_neg h2, dot_data, List.mem_singleton] at hc
          exact Or.inr (Or.inl hc)
    · rw [if_neg hb] at hc
      have hc2 : c ∈ (if strLast? p = some '/' then posixBody p ++ "/" else posixBody p).data
          ∨ c = '/' := by
        by_cases h1 : strHead? p = some '/'
        · rw [if_pos h1, String.data_append] at hc
          rcases List.mem_append.mp hc with h | h
          · rw [slash_data, List.mem_singleton] at h
            exact Or.inr h
          · exact Or.inl h
        · rw [if_neg h1] at hc
          exact Or.inl hc
      rcases hc2 with hc2 | hc2
      · by_cases h2 : strLast? p = some '/'
        · rw [if_pos h2, String.data_append] at hc2
          rcases List.mem_append.mp hc2 with h | h
          · exact posixBody_chars p c h
          · rw [slash_data, List.mem_singleton] at h
            exact Or.inl h
        · rw [if_neg h2] at hc2
          exact posixBody_chars p c hc2
      · exact Or.inl hc2

theorem posixNormalize_head (p : String) (c : Char) (hc : p.data.head? = some c)
    (hsc : isSep c = false) (hnb : '\\' ∉ p.data) :
    ∃ d, (posixNormalize p).data.head? = some d ∧ isSep d = false := by
  have hq : p ≠ "" := by
    intro h
    subst h
    simp at hc
  have hAbs : ¬(strHead? p = some '/') := by
    rw [strHead?, hc]
    intro h
    cases Option.some.inj h
    exact absurd hsc (by decide)
  have hpn : posixNormalize p =
      (if posixBody p = "" then (if strLast? p = some '/' then "./" else ".")
       else (if strLast? p = some '/' then posixBody p ++ "/" else posixBody p)) := by
    simp only [posixNormalize, if_neg hq, if_neg hAbs]
  by_cases hb : posixBody p = ""
  · rw [hpn, if_pos hb]
    by_cases h2 : strLast? p = some '/'
    · rw [if_pos h2]
      exact ⟨'.', rfl, by decide⟩
    · rw [if_neg h2]
      exact ⟨'.', rfl, by decide⟩
  · rw [hpn, if_neg hb]
    cases hstk : resolveDots (if strHead? p = some '/' then false else true) []
        (splitBy (fun ch => ch = '/') p.data) with
    | nil =>
      exfalso
      apply hb
      unfold posixBody
      rw [hstk]
      rfl
    | cons e es =>
      have hem : e ∈ resolveDots (if strHead? p = some '/' then false else true) []
          (splitBy (fun ch => ch = '/') p.data) := by
        rw [hstk]
        exact List.mem_cons_self e es
      have he : e ≠ "" := resolveDots_ne _ _ [] (by simp) e hem
      have hh : (posixBody p).data.head? = e.data.head? := by
        unfold posixBody
        rw [hstk]
        exact joinSegs_head e es he
      obtain ⟨d, ds, hdd⟩ := data_cons_shape he
      have hdhead : e.data.head? = some d := by rw [hdd]; rfl
      have hdmem : d ∈ e.data := by rw [hdd]; exact List.mem_cons_self d ds
      have hdfree : isSep d = false := by
        rcases resolveDots_mem _ _ _ e hem with h | h | h
        · simp at h
        · refine isSep_false_of ?_ ?_
          · intro hd
            have := mem_splitBy_sepFree _ p.data e h d hdmem
            rw [hd] at this
            simp at this
          · intro hd
            have := mem_splitBy_subset _ p.data e h d hdmem
            rw [hd] at this
            exact hnb this
        · subst h
          rw [dotdot_data, List.mem_cons, List.mem_singleton] at hdmem
          have hd : d = '.' := by rcases hdmem with hm | hm <;> exact hm
          subst hd
          decide
      by_cases h2 : strLast? p = some '/'
      · rw [if_pos h2]
        refine ⟨d, ?_, hdfree⟩
        rw [strAppend_head _ _ hb, hh, hdhead]
      · rw [if_neg h2]
        refine ⟨d, ?_, hdfree⟩
        rw [hh, hdhead]

theorem posixJoin_chars (a b : String) :
    ∀ c ∈ (posixJoin a b).data, c = '/' ∨ c = '.' ∨ c ∈ a.data ∨ c ∈ b.data := by
  intro c hc
  by_cases hab : a = "" ∧ b = ""
  · unfold posixJoin at hc
    rw [if_pos hab, dot_data, List.mem_singleton] at hc
    exact Or.inr (Or.inl hc)
  · by_cases ha : a = ""
    · have hj : posixJoin a b = posixNormalize b := by
        unfold posixJoin
        rw [if_neg hab, if_pos ha]
      rw [hj] at hc
      rcases posixNormalize_chars b c hc with h | h | h
      · exact Or.inl h
      · exact Or.inr (Or.inl h)
      · exact Or.inr (Or.inr (Or.inr h))
    · by_cases hb : b = ""
      · have hj : posixJoin a b = posixNormalize a := by
          unfold posixJoin
          rw [if_neg hab, if_neg ha, if_pos hb]
        rw [hj] at hc
        rcases posixNormalize_chars a c hc with h | h | h
        · exact Or.inl h
        · exact Or.inr (Or.inl h)
        · exact Or.inr (Or.inr (Or.inl h))
      · have hj : posixJoin a b = posixNormalize (a ++ "/" ++ b) := by
          unfold posixJoin
          rw [if_neg hab, if_neg ha, if_neg hb]
        rw [hj] at hc
        rcases posixNormalize_chars _ c hc with h | h | h
        · exact Or.inl h
        · exact Or.inr (Or.inl h)
        · rw [String.data_append, String.data_append] at h
          rcases List.mem_append.mp h with h | h
          · rcases List.mem_append.mp h with h | h
            · exact Or.inr (Or.inr (Or.inl h))
            · rw [slash_data, List.mem_singleton] at h
              exact Or.inl h
          · exact Or.inr (Or.inr (Or.inr h))

theorem posixJoin_noBS (a b : String) (hna : '\\' ∉ a.data) (hnb : '\\' ∉ b.data) :
    '\\' ∉ (posixJoin a b).data := by
  intro hmem
  rcases posixJoin_chars a b '\\' hmem with h | h | h | h
  · exact absurd h (by decide)
  · exact absurd h (by decide)
  · exact hna h
  · exact hnb h

theorem posixJoin_head (root f : String) (hnr : '\\' ∉ root.data) (hnf : '\\' ∉ f.data)
    (hr : root.data.head? ≠ some '/') (hf : root = "" → f.data.head? ≠ some '/') :
    ∃ d, (posixJoin root f).data.head? = some d ∧ isSep d = false := by
  by_cases hab : root = "" ∧ f = ""
  · refine ⟨'.', ?_, by decide⟩
    unfold posixJoin
    rw [if_pos hab]
    rfl
  · by_cases ha : root = ""
    · have hbne : f ≠ "" := fun h => hab ⟨ha, h⟩
      have hj : posixJoin root f = posixNormalize f := by
        unfold posixJoin
        rw [if_neg hab, if_pos ha]
      obtain ⟨c, cs, hcd⟩ := data_cons_shape hbne
      have hchead : f.data.head? = some c := by rw [hcd]; rfl
      have hcfree : isSep c = false := by
        refine isSep_false_of ?_ ?_
        · intro h
          subst h
          exact hf ha hchead
        · intro h
          subst h
          exact hnf (by rw [hcd]; exact List.mem_cons_self _ _)
      rw [hj]
      exact posixNormalize_head f c hchead hcfree hnf
    · obtain ⟨c, cs, hcd⟩ := data_cons_shape ha
      have hchead : root.data.head? = some c := by rw [hcd]; rfl
      have hcfree : isSep c = false := by
        refine isSep_false_of ?_ ?_
        · intro h
          subst h
          exact hr hchead
        · intro h
          subst h
          exact hnr (by rw [hcd]; exact List.mem_cons_self _ _)
      by_cases hb : f = ""
      · have hj : posixJoin root f = posixNormalize root := by
          unfold posixJoin
          rw [if_neg hab, if_neg ha, if_pos hb]
        rw [hj]
        exact posixNormalize_head root c hchead hcfree hnr
      · have hj : posixJoin root f = posixNormalize (root ++ "/" ++ f) := by
          unfold posixJoin
          rw [if_neg hab, if_neg ha, if_neg hb]
        rw [hj]
        have hne2 : root ++ "/" ≠ "" := by
          apply ne_empty_of_data_ne_nil
          rw [String.data_append]
          simp [data_ne_nil_of_ne_empty ha]
        have hhead2 : (root ++ "/" ++ f).data.head? = some c := by
          rw [strAppend_head _ _ hne2, strAppend_head _ _ ha, hchead]
        have hnb2 : '\\' ∉ (root ++ "/" ++ f).data := by
          intro hm
          rw [String.data_append, String.data_append] at hm
          rcases List.mem_append.mp hm with hm | hm
          · rcases List.mem_append.mp hm with hm | hm
            · exact hnr hm
            · rw [slash_data, List.mem_singleton] at hm
              exact absurd hm (by decide)
          · exact hnf hm
        exact posixNormalize_head _ c hhead2 hcfree hnb2

theorem take_two_head {l : List Char} (h : l.take 2 = ['\\', '\\']) :
    l.head? = some '\\' := by
  cases l with
  | nil => simp at h
  | cons a t =>
    rw [List.take_succ_cons] at h
    have := (List.cons.inj h).1
    rw [this]
    rfl

/-- The head character of a normalize-path result is the head character of
its input whenever that head is not a separator. -/
theorem normalizePath_head (q : String) (c : Char) (hc : q.data.head? = some c)
    (hsc : isSep c = false) : (normalizePath q).data.head? = some c := by
  have hq : q ≠ "" := by
    intro h
    subst h
    simp at hc
  have h1 : ¬(q = "\\" ∨ q = "/") := by
    rintro (rfl | rfl)
    · have : some '\\' = some c := hc
      cases Option.some.inj this
      exact absurd hsc (by decide)
    · have : some '/' = some c := hc
      cases Option.some.inj this
      exact absurd hsc (by decide)
  by_cases h2 : q.length ≤ 1
  · have hn : normalizePath q = q := by simp [normalizePath, h1, h2]
    rw [hn, hc]
  · have hunc : ¬ uncCond q := by
      intro hcu
      have ht : q.data.head? = some '\\' := take_two_head hcu.2.2.2
      rw [hc] at ht
      cases Option.some.inj ht
      exact absurd hsc (by decide)
    obtain ⟨cs, hcd⟩ : ∃ cs, q.data = c :: cs := by
      cases hd : q.data with
      | nil => rw [hd] at hc; simp at hc
      | cons a l =>
        rw [hd] at hc
        have : some a = some c := hc
        cases Option.some.inj this
        exact ⟨l, rfl⟩
    obtain ⟨b, bs, hbs⟩ := splitBy_cons_shape isSep cs
    have hsplit : splitBy isSep q.data = String.mk (c :: b.data) :: bs := by
      rw [hcd]
      have he : splitBy isSep (c :: cs) = consHead c (splitBy isSep cs) := by
        simp [splitBy, hsc]
      rw [he, hbs]
      rfl
    have hX : String.mk (c :: b.data) ≠ "" := by
      apply ne_empty_of_data_ne_nil
      simp
    have hss : splitSeps q = String.mk (c :: b.data) :: dropInnerEmptyTail bs := by
      unfold splitSeps
      rw [hsplit]
    have hn : normalizePath q = joinSegs (stripTrail (splitSeps q)) := by
      simp [normalizePath, h1, h2, hunc, str_empty_append]
    rw [hn, hss]
    have hXhead : (String.mk (c :: b.data)).data.head? = some c := rfl
    cases hdi : dropInnerEmptyTail bs with
    | nil =>
      have hstr : stripTrail [String.mk (c :: b.data)] = [String.mk (c :: b.data)] := by
        simp [stripTrail, hX]
      rw [hstr]
      rw [joinSegs_head _ _ hX, hXhead]
    | cons d ds =>
      have hstr : stripTrail (String.mk (c :: b.data) :: d :: ds)
          = String.mk (c :: b.data) :: stripTrail (d :: ds) := rfl
      rw [hstr]
      rw [joinSegs_head _ _ hX, hXhead]

/-- Outside the Windows extended-namespace branch, normalize-path is
idempotent. -/
theorem normalizePath_fixed (p : String) (hunc : ¬ uncCond p) :
    normalizePath (normalizePath p) = normalizePath p := by
  by_cases h1 : p = "\\" ∨ p = "/"
  · have hn : normalizePath p = "/" := by simp [normalizePath, h1]
    rw [hn]
    decide
  · by_cases h2 : p.length ≤ 1
    · have hn : normalizePath p = p := by simp [normalizePath, h1, h2]
      rw [hn, hn]
    · have hn : normalizePath p = joinSegs (stripTrail (splitSeps p)) := by
        simp [normalizePath, h1, h2, hunc, str_empty_append]
      rcases hst : stripTrail (splitSeps p) with _ | ⟨x, xs⟩
      · rw [hn, hst]
        decide
      · cases xs with
        | nil =>
          by_cases hx : x = ""
          · subst hx
            rw [hn, hst]
            decide
          · have hxf : SepFree x :=
              mem_splitSeps_sepFree p x
                (stripTrail_subset _ x (by rw [hst]; exact List.mem_cons_self x []))
            rw [hn, hst]
            exact normalizePath_single x hx hxf
        | cons u us =>
          have hAll : AllNE (u :: us) := stripTrail_splitSeps_tail_allNE p x (u :: us) hst
          have hall : ∀ s ∈ x :: u :: us, SepFree s := by
            intro s hs
            exact mem_splitSeps_sepFree p s (stripTrail_subset _ s (by rw [hst]; exact hs))
          rw [hn, hst]
          exact normalizePath_multi x u us hall hAll

/-! ### Claim C5: idempotence of path normalization -/

/-- C5 (counterexample): with root prefix assets, _fullPath prefixes the
root again on its own output, so it is not idempotent. -/
theorem fullPath_not_idempotent_counterexample :
    S1._fullPath (S1._fullPath "x.png") ≠ S1._fullPath "x.png" ∧
    S1._fullPath "x.png" = "assets/x.png" ∧
    S1._fullPath (S1._fullPath "x.png") = "assets/assets/x.png" := by
  refine ⟨by decide, by decide, by decide⟩

/-- C5 (amended): the bare normalizer underlying _fullPath is idempotent —
normalize(normalize p) = normalize p for every p outside the Windows
extended-namespace branch — and consequently _fullPath's output is a fixed
point of the normalizer for backslash-free inputs: normalize(_fullPath f) =
_fullPath f; _fullPath itself is not idempotent, since it joins the root
prefix onto its own output again. -/
theorem normalizePath_idempotent (S : SupabaseStorage) (p f : String) :
    (¬ uncCond p → normalizePath (normalizePath p) = normalizePath p) ∧
    ('\\' ∉ S.root.data → '\\' ∉ f.data →
      normalizePath (S._fullPath f) = S._fullPath f) := by
  refine ⟨normalizePath_fixed p, fun hr hf => ?_⟩
  have hnb : '\\' ∉ (posixJoin S.root f).data := posixJoin_noBS S.root f hr hf
  have hunc : ¬ uncCond (posixJoin S.root f) := by
    intro hc
    exact hnb (List.get?_mem hc.2.1)
  exact normalizePath_fixed (posixJoin S.root f) hunc

/-- Witness for C5 on a concrete slash-laden path and a concrete storage. -/
theorem normalizePath_idempotent_witness :
    normalizePath (normalizePath "a//b/./c/") = normalizePath "a//b/./c/" ∧
    normalizePath (S1._fullPath "x.png") = S1._fullPath "x.png" :=
  ⟨(normalizePath_idempotent S1 "a//b/./c/" "x.png").1 (by decide),
   (normalizePath_idempotent S1 "a//b/./c/" "x.png").2 (by decide) (by decide)⟩

theorem stripLeadSlash_head_ne (s : String) (h : s.data.head? ≠ some '/') :
    stripLeadSlash s = s := by
  have he : stripLeadSlash s =
      (match s.data with | '/' :: rest => String.mk rest | _ => s) := rfl
  rw [he]
  split
  · rename_i rest heq
    exfalso
    apply h
    rw [heq]
    rfl
  · rfl

theorem stripLeadSlash_slash (s : String) (rest : List Char) (h : s.data = '/' :: rest) :
    stripLeadSlash s = String.mk rest := by
  have he : stripLeadSlash s =
      (match s.data with | '/' :: rest => String.mk rest | _ => s) := rfl
  rw [he]
  split
  · rename_i rest2 heq
    rw [h] at heq
    rw [(List.cons.inj heq).2]
  · rename_i hne
    exact absurd rfl (by rw [h] at hne; exact hne rest)

/-- The root prefix computed by the constructor from a backslash-free
configured root never starts with a slash: normalize-path leaves at most one
leading slash and the constructor strips it. -/
theorem init_root_head (r : String) (hnb : '\\' ∉ r.data) :
    (stripLeadSlash (normalizePath r)).data.head? ≠ some '/' := by
  by_cases h1 : r = "\\" ∨ r = "/"
  · have hn : normalizePath r = "/" := by simp [normalizePath, h1]
    rw [hn]
    decide
  · by_cases h2 : r.length ≤ 1
    · have hn : normalizePath r = r := by simp [normalizePath, h1, h2]
      rw [hn]
      cases hd : r.data with
      | nil =>
        have hs : stripLeadSlash r = r := stripLeadSlash_head_ne r (by rw [hd]; simp)
        rw [hs, hd]
        simp
      | cons a l =>
        by_cases ha : a = '/'
        · exfalso
          subst ha
          have hlen : r.data.length ≤ 1 := h2
          rw [hd] at hlen
          simp at hlen
          have hr : r = "/" := strEq_of_data (by rw [hd, hlen])
          exact h1 (Or.inr hr)
        · have hne : r.data.head? ≠ some '/' := by
            rw [hd]
            intro hh
            exact ha (Option.some.inj hh)
          rw [stripLeadSlash_head_ne r hne]
          exact hne
    · have hunc : ¬ uncCond r := fun hc => hnb (List.get?_mem hc.2.1)
      have hn : normalizePath r = joinSegs (stripTrail (splitSeps r)) := by
        simp [normalizePath, h1, h2, hunc, str_empty_append]
      rw [hn]
      rcases hst : stripTrail (splitSeps r) with _ | ⟨x, xs⟩
      · decide
      · cases xs with
        | nil =>
          by_cases hx : x = ""
          · subst hx
            decide
          · have hxf : SepFree x :=
              mem_splitSeps_sepFree r x
                (stripTrail_subset _ x (by rw [hst]; exact List.mem_cons_self x []))
            show (stripLeadSlash x).data.head? ≠ some '/'
            obtain ⟨c, cs, hcd⟩ := data_cons_shape hx
            have hcf : isSep c = false := hxf c (by rw [hcd]; exact List.mem_cons_self c cs)
            have hcne : x.data.head? ≠ some '/' := by
              rw [hcd]
              intro hh
              cases Option.some.inj hh
              exact absurd hcf (by decide)
            rw [stripLeadSlash_head_ne x hcne]
            exact hcne
        | cons u us =>
          have hAll : AllNE (u :: us) := stripTrail_splitSeps_tail_allNE r x (u :: us) hst
          have hu : u ≠ "" := hAll u (List.mem_cons_self u us)
          have huf : SepFree u :=
            mem_splitSeps_sepFree r u
              (stripTrail_subset _ u
                (by rw [hst]; exact List.mem_cons_of_mem x (List.mem_cons_self u us)))
          by_cases hx : x = ""
          · subst hx
            have hdata : (joinSegs ("" :: u :: us)).data
                = '/' :: (joinSegs (u :: us)).data := by
              rw [joinSegs_cons_cons_data]
              rfl
            rw [stripLeadSlash_slash _ _ hdata]
            show (joinSegs (u :: us)).data.head? ≠ some '/'
            rw [joinSegs_head u us hu]
            obtain ⟨c, cs, hcd⟩ := data_cons_shape hu
            have hcf : isSep c = false := huf c (by rw [hcd]; exact List.mem_cons_self c cs)
            rw [hcd]
            intro hh
            cases Option.some.inj hh
            exact absurd hcf (by decide)
          · have hxf : SepFree x :=
              mem_splitSeps_sepFree r x
                (stripTrail_subset _ x (by rw [hst]; exact List.mem_cons_self x (u :: us)))
            obtain ⟨c, cs, hcd⟩ := data_cons_shape hx
            have hcf : isSep c = false := hxf c (by rw [hcd]; exact List.mem_cons_self c cs)
            have hcne : (joinSegs (x :: u :: us)).data.head? ≠ some '/' := by
              rw [joinSegs_head x _ hx, hcd]
              intro hh
              cases Option.some.inj hh
              exact absurd hcf (by decide)
            rw [stripLeadSlash_head_ne _ hcne]
            exact hcne

/-! ### Claim C6: full paths and the leading separator -/

/-- C6 (counterexample): with no configured root, _fullPath of an absolute
path keeps its leading slash — _fullPath itself never strips one. -/
theorem fullPath_keeps_leading_slash_counterexample :
    S0._fullPath "/a" = "/a" ∧ (S0._fullPath "/a").data.head? = some '/' := by
  refine ⟨by decide, by decide⟩

/-- C6 (amended): _fullPath joins the root prefix and the relative path and
collapses dot and redundant separators; the leading-slash stripping happens
only on the configured root at construction (conjunct two: a backslash-free
configured root yields a root prefix with no leading slash), and the result
of _fullPath has no leading slash for backslash-free inputs provided the
root prefix is nonempty or the relative path itself has no leading slash —
with an empty root and an absolute path the leading slash is kept. -/
theorem fullPath_no_leading_slash (S : SupabaseStorage) (f : String)
    (cfg : SupabaseStorageConfig) (r : String) :
    ('\\' ∉ S.root.data → '\\' ∉ f.data → S.root.data.head? ≠ some '/' →
      (S.root = "" → f.data.head? ≠ some '/') →
      (S._fullPath f).data.head? ≠ some '/') ∧
    (cfg.root = some r → '\\' ∉ r.data →
      (SupabaseStorage.init cfg).root.data.head? ≠ some '/') := by
  constructor
  · intro hnr hnf hr hf
    obtain ⟨d, hd, hds⟩ := posixJoin_head S.root f hnr hnf hr hf
    show (normalizePath (posixJoin S.root f)).data.head? ≠ some '/'
    rw [normalizePath_head (posixJoin S.root f) d hd hds]
    intro hh
    cases Option.some.inj hh
    exact absurd hds (by decide)
  · intro hroot hnb
    have hi : (SupabaseStorage.init cfg).root
        = if r = "" then "" else stripLeadSlash (normalizePath r) := by
      simp [SupabaseStorage.init, hroot]
    rw [hi]
    by_cases hr0 : r = ""
    · rw [if_pos hr0]
      simp
    · rw [if_neg hr0]
      exact init_root_head r hnb

/-- Witness for C6: the assets-rooted storage resolves a relative path to a
key with no leading slash, and a configured root with leading slash is
stripped at construction. -/
theorem fullPath_no_leading_slash_witness :
    (S1._fullPath "x.png").data.head? ≠ some '/' ∧
    (SupabaseStorage.init ⟨"u", "s", "bkt", some "/assets/", none⟩).root.data.head?
      ≠ some '/' := by
  have h := fullPath_no_leading_slash S1 "x.png"
    ⟨"u", "s", "bkt", some "/assets/", none⟩ "/assets/"
  exact ⟨h.1 (by decide) (by decide) (by decide) (by decide), h.2 rfl (by decide)⟩
